import Mathlib

/-!
Verification of the pibench workload-generation core against its design
specification.

The embedding follows the sources in src/include:
- operation_generator.hpp : operation_t, operation_generator_t (table
  construction, next(), set_seed),
- key_generator.hpp       : key_generator_t and its three distribution
  variants (uniform / selfsimilar / zipfian),
- benchmark.hpp           : distribution selector, options, stats, and the
  benchmark orchestrator declarations.

Parts of the repository referenced by the headers but not present under
src (key_generator.cpp with bits_shift/next/current_id_, benchmark.cpp
with load, uniform_random.hpp, the selfsimilar/zipfian distribution
headers, and the C++ standard library random facilities) are modelled from
the specification; every such definition carries a doc comment starting
with `Modelled from the spec:`.

Machine integers are embedded as `Nat` with explicit `% 2 ^ 64` where
overflow matters; keys are lists of byte values.
-/

namespace PiBench

/-- Operation types, from operation_generator.hpp (enum class operation_t:
READ = 0, INSERT = 1, UPDATE = 2, REMOVE = 3, SCAN = 4). -/
inductive operation_t : Type where
  | READ
  | INSERT
  | UPDATE
  | REMOVE
  | SCAN
deriving DecidableEq

/-- One draw from a discrete distribution over the weight list `w`
(std::discrete_distribution sampled at a point `u` of cumulative weight):
the least index whose cumulative weight strictly exceeds `u`, clamped to
the last slot, matching the C++ guarantee that operator() returns an index
in [0, size). -/
def pickIdx : List ℚ → ℚ → ℕ
  | [], _ => 0
  | [_], _ => 0
  | a :: b :: t, u => if u < a then 0 else pickIdx (b :: t) (u - a) + 1

/-- static_cast<operation_t> applied to a sampled index
(operation_generator.hpp line 40). -/
def opOfIdx : ℕ → operation_t
  | 0 => operation_t.READ
  | 1 => operation_t.INSERT
  | 2 => operation_t.UPDATE
  | 3 => operation_t.REMOVE
  | _ => operation_t.SCAN

/-- The configured ratio belonging to each operation type, in the order the
constructor passes them to the discrete distribution. -/
def ratioOf (r i u m s : ℚ) : operation_t → ℚ
  | operation_t.READ => r
  | operation_t.INSERT => i
  | operation_t.UPDATE => u
  | operation_t.REMOVE => m
  | operation_t.SCAN => s

/-- The 256-entry operation table built by the operation_generator_t
constructor (operation_generator.hpp lines 34-42): slot i holds one
independent draw from the discrete distribution weighted by the five
ratios; `σ` supplies the underlying engine draw for each slot. -/
def buildTable (r i u m s : ℚ) (σ : ℕ → ℚ) : Fin 256 → operation_t :=
  fun idx => opOfIdx (pickIdx [r, i, u, m, s] (σ idx.1))

/-- operation_generator_t::next() (operation_generator.hpp lines 49-52):
return ops_[uni_dist.next_uint32() & 0xff]; `draw` is the raw 32-bit value
produced by the thread-local fast generator. -/
def og_next (ops_ : Fin 256 → operation_t) (draw : ℕ) : operation_t :=
  ops_ ⟨draw &&& 255, Nat.lt_of_le_of_lt Nat.and_le_right (by norm_num)⟩

/-- Fraction of the 256 table slots holding operation `o`: the long-run
frequency with which next() returns `o` under uniform byte draws. -/
def tableFreq (ops_ : Fin 256 → operation_t) (o : operation_t) : ℚ :=
  ((Finset.univ.filter fun idx => ops_ idx = o).card : ℚ) / 256

/-- minstd_rand0, the engine behind std::default_random_engine in the
toolchain the code targets: x' = 16807 * x mod 2147483647. -/
def engine_next (x : ℕ) : ℕ := 16807 * x % 2147483647

/-- engine.seed(s) for minstd_rand0: the state becomes s mod 2147483647,
replaced by 1 when that is 0. -/
def engine_seed (sd : ℕ) : ℕ :=
  if sd % 2147483647 = 0 then 1 else sd % 2147483647

/-- State of a default-constructed minstd_rand0 (default seed 1). -/
def default_engine_state : ℕ := 1

/-- n steps of the engine. -/
def engine_iter : ℕ → ℕ → ℕ
  | 0, x => x
  | n + 1, x => engine_iter n (engine_next x)

/-- Map a raw engine output (in [1, 2147483646]) to a cumulative-weight
point in [0, total), as a discrete-distribution sampler consumes it. -/
def draw_to_q (total : ℚ) (x : ℕ) : ℚ :=
  ((x - 1 : ℕ) : ℚ) * total / 2147483647

/-- The thread-local static state of operation_generator_t
(operation_generator.hpp lines 72-78): seed_ and the state of the foedus
UniformRandom fast generator uni_dist. -/
structure op_gen_thread_state where
  seed_ : ℕ
  uni_dist : ℕ
deriving DecidableEq

/-- operation_generator_t::set_seed (operation_generator.hpp lines 59-63):
seed_ = seed; uni_dist.set_current_seed(seed_). The reset of the fast
generator state to the seed is modelled from the spec
(uniform_random.hpp is not in src). -/
def og_set_seed (sd : ℕ) (st : op_gen_thread_state) : op_gen_thread_state :=
  { seed_ := sd, uni_dist := sd }

/-- operation_generator_t: its only per-object state is the 256-entry
table std::array<operation_t, 256> ops_. -/
structure operation_generator_t where
  ops_ : Fin 256 → operation_t

/-- The operation_generator_t constructor as a state transformer over the
thread-local state: it builds the table with a LOCAL default-constructed
std::default_random_engine (operation_generator.hpp line 36) and never
reads or writes seed_ or uni_dist, so the thread state passes through
unchanged. -/
def mk_operation_generator (r i u m s : ℚ) (st : op_gen_thread_state) :
    operation_generator_t × op_gen_thread_state :=
  (⟨buildTable r i u m s
      fun n => draw_to_q ([r, i, u, m, s].sum) (engine_iter (n + 1) default_engine_state)⟩,
   st)

/-- key_generator_t configuration (key_generator.hpp lines 137-149): the
keyspace size N_, the encoded key size size_ in bytes, the configured key
prefix bytes (field prefix_ in the source), and the flag telling whether a
one-byte thread id becomes part of the key (field tid_prefix in the
source). -/
structure key_generator_t where
  N_ : ℕ
  size_ : ℕ
  pfx : List ℕ
  tidPfx : Bool

/-- key_generator_t::size() (key_generator.hpp line 86): total key width,
tid_prefix ? prefix_.size() + size_ + 1 : prefix_.size() + size_. -/
def key_generator_t.size (g : key_generator_t) : ℕ :=
  if g.tidPfx then g.pfx.length + g.size_ + 1 else g.pfx.length + g.size_

/-- Modelled from the spec: the scrambling step of bits_shift
(key_generator.cpp, not in src). The spec fixes only that the 8-byte id is
bit-shifted/rotated, stably and invertibly; modelled as a left rotation of
the 64-bit id by one byte. -/
def rotl_id (id : ℕ) : ℕ := (id * 256) % 2 ^ 64 + id / 2 ^ 56

/-- The inverse rotation: right-rotate a 64-bit value by one byte. -/
def rotr_id (h : ℕ) : ℕ := h / 256 + (h % 256) * 2 ^ 56

/-- Big-endian serialization of the low n bytes of v. -/
def beBytes : ℕ → ℕ → List ℕ
  | 0, _ => []
  | n + 1, v => v / 2 ^ (8 * n) % 256 :: beBytes n v

/-- Read a big-endian byte list back as an integer. -/
def fromBE (key : List ℕ) : ℕ := key.foldl (fun acc b => 256 * acc + b) 0

/-- Modelled from the spec: bits_shift (key_generator.cpp, not in src)
materializes the scrambled id into the key buffer; per the header comment
(key_generator.hpp lines 27-29), when the configured key size is smaller
than 8 bytes the higher bits are discarded, and when it is larger zeroes
are prepended. -/
def bits_shift (size id : ℕ) : List ℕ :=
  if size ≤ 8 then beBytes size (rotl_id id)
  else List.replicate (size - 8) 0 ++ beBytes 8 (rotl_id id)

/-- The inverse of the bit-shift scrambling, applied to encoded bytes. -/
def unbits_shift (key : List ℕ) : ℕ := rotr_id (fromBE key)

/-- Modelled from the spec: key_generator_t::next (key_generator.cpp not
in src). `nid` stands for the virtual next_id() of the configured
distribution variant; with in_sequence = true the id is the thread-local
cursor current_id_ and the cursor advances, bypassing the distribution
entirely. Returns the key bytes and the new cursor. -/
def kg_next (g : key_generator_t) (nid : ℕ → ℕ) (in_seq : Bool) (cur draw : ℕ) :
    List ℕ × ℕ :=
  if in_seq then (g.pfx ++ bits_shift g.size_ cur, cur + 1)
  else (g.pfx ++ bits_shift g.size_ (nid draw), cur)

/-- Modelled from the spec: the time-based next(tid, ...) overload embeds
the one-byte thread id between the configured key prefix and the encoded
id (key layout comment, key_generator.hpp lines 20-23). -/
def kg_next_time (g : key_generator_t) (tid id : ℕ) : List ℕ :=
  g.pfx ++ tid :: bits_shift g.size_ id

/-- Modelled from the spec: benchmark_t::load (benchmark.cpp not in src):
a single thread issues exactly N_ inserts, each keyed by
key_generator_->next(in_sequence = true); the identifier cursor starts at
1. Each list entry records (identifier consumed, key bytes inserted). -/
def load_loop (g : key_generator_t) (nid : ℕ → ℕ) : ℕ → ℕ → List (ℕ × List ℕ)
  | 0, _ => []
  | n + 1, cur =>
    (cur, (kg_next g nid true cur 0).1) :: load_loop g nid n (kg_next g nid true cur 0).2

/-- The full load phase: N_ inserts starting from identifier 1. -/
def load (g : key_generator_t) (nid : ℕ → ℕ) : List (ℕ × List ℕ) :=
  load_loop g nid g.N_ 1

/-- Modelled from the spec: std::uniform_int_distribution<uint64_t>(1, n)
consuming one engine draw — every residue class maps to exactly one value
of [1, n]. Used by uniform_key_generator_t::next_id for both the stored
dist_(1, N) and the per-call tmp_dist(1, upper_bound). -/
def uniform_next_id (n draw : ℕ) : ℕ := 1 + draw % n

/-- Modelled from the spec: a skewed distribution (the selfsimilar/zipfian
headers are not in src) over ranks 1..w.length with positive weight list
w, sampled by inverting the cumulative weights at the draw u. -/
def skewed_next_id (w : List ℚ) (u : ℚ) : ℕ := 1 + pickIdx w u

/-- The thread-local static state of key_generator_t (key_generator.hpp
lines 124-132): seed_ and the std::default_random_engine generator_. -/
structure thread_rng_state where
  seed_ : ℕ
  generator_ : ℕ
deriving DecidableEq

/-- key_generator_t::set_seed (key_generator.hpp lines 100-104):
seed_ = seed; generator_.seed(seed_). Both members are thread_local, so
the call acts on the calling thread's copies. -/
def kg_set_seed (sd : ℕ) (st : thread_rng_state) : thread_rng_state :=
  { seed_ := sd, generator_ := engine_seed sd }

/-- set_seed as seen process-wide: thread t calls it; every other thread's
thread-local state is untouched. -/
def kg_set_seed_by (t sd : ℕ) (procSt : ℕ → thread_rng_state) :
    ℕ → thread_rng_state :=
  fun t2 => if t2 = t then kg_set_seed sd (procSt t) else procSt t2

/-- C7: size() returns the total key width: the prefix length plus the
configured key size, plus exactly one additional byte when the thread-id
prefix mode is enabled. -/
theorem size_total_key_width (g : key_generator_t) :
    key_generator_t.size g =
      g.pfx.length + g.size_ + (if g.tidPfx then 1 else 0) := by
  unfold key_generator_t.size
  cases h : g.tidPfx <;> simp [h]

/-- Every operation_t value is one of the five enumerators. -/
theorem operation_t_cases (o : operation_t) :
    o = operation_t.READ ∨ o = operation_t.INSERT ∨ o = operation_t.UPDATE ∨
      o = operation_t.REMOVE ∨ o = operation_t.SCAN := by
  cases o <;> simp

/-- C10: next() is safe for every possible 32-bit random draw: masking
with 0xff always yields an index below 256, so the 256-entry table access
is in bounds and next() always returns one of the five operation_t
values. -/
theorem og_next_always_safe (r i u m s : ℚ) (σ : ℕ → ℚ) (draw : ℕ) :
    draw &&& 255 < 256 ∧
      (og_next (buildTable r i u m s σ) draw = operation_t.READ ∨
        og_next (buildTable r i u m s σ) draw = operation_t.INSERT ∨
        og_next (buildTable r i u m s σ) draw = operation_t.UPDATE ∨
        og_next (buildTable r i u m s σ) draw = operation_t.REMOVE ∨
        og_next (buildTable r i u m s σ) draw = operation_t.SCAN) :=
  ⟨Nat.lt_of_le_of_lt Nat.and_le_right (by norm_num),
    operation_t_cases _⟩

/-- C9: two operation_generator_t objects constructed from the same five
ratios hold identical tables, whatever the thread-local seed state is at
construction time and whatever set_seed calls happened before: the
constructor uses a local default-seeded engine, so set_seed influences
only the uni_dist state that next() draws indexes from. -/
theorem table_independent_of_seed (r i u m s : ℚ)
    (st st2 : op_gen_thread_state) (sd sd2 : ℕ) :
    (mk_operation_generator r i u m s (og_set_seed sd st)).1.ops_ =
        (mk_operation_generator r i u m s (og_set_seed sd2 st2)).1.ops_ ∧
      (mk_operation_generator r i u m s st).1.ops_ =
        (mk_operation_generator r i u m s st2).1.ops_ ∧
      (mk_operation_generator r i u m s st).2 = st :=
  ⟨rfl, rfl, rfl⟩

/-- The discrete-distribution sampler always produces a valid index. -/
theorem pickIdx_lt_length (w : List ℚ) (u : ℚ) (hw : w ≠ []) :
    pickIdx w u < w.length := by
  induction w generalizing u with
  | nil => exact absurd rfl hw
  | cons a t ih =>
    cases t with
    | nil => simp [pickIdx]
    | cons b t2 =>
      simp only [pickIdx]
      split
      · simp
      · have := ih (u - a) (List.cons_ne_nil b t2)
        simp only [List.length_cons] at this ⊢
        omega

/-- A draw inside the total cumulative weight always lands on a slot of
positive weight: zero-weight slots are never sampled. -/
theorem pickIdx_pos_weight (w : List ℚ) (u : ℚ) (h0 : 0 ≤ u) (hu : u < w.sum) :
    0 < w.getD (pickIdx w u) 0 := by
  induction w generalizing u with
  | nil =>
    simp only [List.sum_nil] at hu
    linarith
  | cons a t ih =>
    cases t with
    | nil =>
      simp only [pickIdx, List.getD, List.sum_cons, List.sum_nil, add_zero] at hu ⊢
      simpa using lt_of_le_of_lt h0 hu
    | cons b t2 =>
      simp only [pickIdx]
      split
      · next h => simpa using lt_of_le_of_lt h0 h
      · next h =>
        push_neg at h
        have h0' : 0 ≤ u - a := by linarith
        have hu' : u - a < (b :: t2).sum := by
          simp only [List.sum_cons] at hu ⊢
          linarith
        simpa [List.getD_cons_succ] using ih (u - a) h0' hu'

/-- The sampled index names the operation whose configured ratio sits at
that position of the weight list. -/
theorem ratioOf_opOfIdx (r i u m s : ℚ) (j : ℕ) (hj : j < 5) :
    ratioOf r i u m s (opOfIdx j) = [r, i, u, m, s].getD j 0 := by
  interval_cases j <;> rfl

/-- One engine step always lands inside the minstd modulus. -/
theorem engine_next_le (x : ℕ) : engine_next x ≤ 2147483646 := by
  unfold engine_next
  omega

/-- Iterating the engine preserves the modulus bound. -/
theorem engine_iter_le (n x : ℕ) (hx : x ≤ 2147483646) :
    engine_iter n x ≤ 2147483646 := by
  induction n generalizing x with
  | zero => exact hx
  | succ k ih => exact ih (engine_next x) (engine_next_le x)

/-- At least one engine step has been taken, so the bound holds for any
start state. -/
theorem engine_iter_succ_le (n x : ℕ) : engine_iter (n + 1) x ≤ 2147483646 := by
  have h : engine_iter (n + 1) x = engine_iter n (engine_next x) := rfl
  rw [h]
  exact engine_iter_le n (engine_next x) (engine_next_le x)

/-- Characterization of the sampled slot at ratios (1/2, 1/2, 0, 0, 0):
an engine output x maps to slot 0 (READ) exactly when 2 * (x - 1) is below
the minstd modulus, and to slot 1 (INSERT) otherwise. -/
theorem pickIdx_half_char (x : ℕ) (hx : x ≤ 2147483646) :
    pickIdx [(1 : ℚ)/2, 1/2, 0, 0, 0] (draw_to_q 1 x) =
      if 2 * (x - 1) < 2147483647 then 0 else 1 := by
  have hu1 : draw_to_q 1 x < 1 := by
    unfold draw_to_q
    rw [mul_one, div_lt_iff₀ (by norm_num : (0 : ℚ) < 2147483647)]
    have hn : (x - 1 : ℕ) ≤ 2147483645 := by omega
    have hq : ((x - 1 : ℕ) : ℚ) ≤ 2147483645 := by exact_mod_cast hn
    linarith
  have hiff : draw_to_q 1 x < 1/2 ↔ 2 * (x - 1) < 2147483647 := by
    unfold draw_to_q
    rw [mul_one, div_lt_iff₀ (by norm_num : (0 : ℚ) < 2147483647)]
    constructor
    · intro hlt
      have hq : ((2 * (x - 1) : ℕ) : ℚ) < 2147483647 := by push_cast; linarith
      exact_mod_cast hq
    · intro hlt
      have hq : ((2 * (x - 1) : ℕ) : ℚ) < ((2147483647 : ℕ) : ℚ) := by exact_mod_cast hlt
      push_cast at hq
      linarith
  have hform : pickIdx [(1 : ℚ)/2, 1/2, 0, 0, 0] (draw_to_q 1 x) =
      if draw_to_q 1 x < 1/2 then 0 else 1 := by
    simp only [pickIdx]
    by_cases hc : draw_to_q 1 x < 1/2
    · rw [if_pos hc, if_pos hc]
    · rw [if_neg hc, if_neg hc]
      have hc2 : (1 : ℚ)/2 ≤ draw_to_q 1 x := le_of_not_lt hc
      have hlt2 : draw_to_q 1 x - 1/2 < 1/2 := by linarith
      rw [if_pos hlt2]
  rw [hform]
  simp only [hiff]

/-- C5: for every keyspace size n >= 1 each concrete generator's next_id
returns an integer in [1, n] (and likewise in [1, upper_bound] for the
bounded overload, which uses the same per-call construction); for the
uniform variant every value of the range is hit by exactly one residue
class of draws, so every value is equally likely. -/
theorem next_id_in_range :
    (∀ n draw : ℕ, 1 ≤ n →
        1 ≤ uniform_next_id n draw ∧ uniform_next_id n draw ≤ n) ∧
      (∀ (w : List ℚ) (u : ℚ), 1 ≤ w.length →
        1 ≤ skewed_next_id w u ∧ skewed_next_id w u ≤ w.length) ∧
      (∀ n v : ℕ, 1 ≤ v → v ≤ n →
        ((Finset.range n).filter fun d => uniform_next_id n d = v).card = 1) := by
  refine ⟨?_, ?_, ?_⟩
  · intro n draw hn
    unfold uniform_next_id
    have : draw % n < n := Nat.mod_lt draw (by omega)
    omega
  · intro w u hw
    have hne : w ≠ [] := by
      intro h
      subst h
      simp at hw
    have := pickIdx_lt_length w u hne
    unfold skewed_next_id
    omega
  · intro n v hv1 hv2
    have hset : ((Finset.range n).filter fun d => uniform_next_id n d = v) = {v - 1} := by
      ext d
      simp only [Finset.mem_filter, Finset.mem_range, Finset.mem_singleton]
      constructor
      · rintro ⟨hd, he⟩
        unfold uniform_next_id at he
        rw [Nat.mod_eq_of_lt hd] at he
        omega
      · intro hd
        subst hd
        have hlt : v - 1 < n := by omega
        refine ⟨hlt, ?_⟩
        unfold uniform_next_id
        rw [Nat.mod_eq_of_lt hlt]
        omega
    rw [hset, Finset.card_singleton]

/-- Witness for C5 at concrete inputs. -/
theorem next_id_in_range_witness :
    (1 ≤ uniform_next_id 5 7 ∧ uniform_next_id 5 7 ≤ 5) ∧
      (1 ≤ skewed_next_id [1, 2, 3] (1/2) ∧ skewed_next_id [1, 2, 3] (1/2) ≤ 3) ∧
      ((Finset.range 5).filter fun d => uniform_next_id 5 d = 3).card = 1 :=
  ⟨next_id_in_range.1 5 7 (by norm_num),
    by simpa using next_id_in_range.2.1 [1, 2, 3] (1/2) (by simp),
    next_id_in_range.2.2 5 3 (by norm_num) (by norm_num)⟩

set_option maxRecDepth 20000 in
/-- C2 counterexample: at the valid ratio tuple (1/2, 1/2, 0, 0, 0), the
table actually built by the constructor — with its local default-seeded
deterministic engine, exactly as in the source — holds READ in 124 of the
256 slots, so the long-run frequency with which next() returns READ is
124/256, deviating from the configured ratio 1/2 by 4/256 > 1/256: the
slot-by-slot independent sampling gives binomial, not quantization-bounded,
error. -/
theorem table_frequency_counterexample :
    tableFreq (mk_operation_generator (1/2) (1/2) 0 0 0 ⟨0, 0⟩).1.ops_
        operation_t.READ = 124/256 ∧
      ¬ |tableFreq (mk_operation_generator (1/2) (1/2) 0 0 0 ⟨0, 0⟩).1.ops_
            operation_t.READ - 1/2| ≤ 1/256 := by
  have hsum : [(1 : ℚ)/2, 1/2, 0, 0, 0].sum = 1 := by norm_num
  have hchar : ∀ idx : Fin 256,
      ((mk_operation_generator (1/2) (1/2) 0 0 0 ⟨0, 0⟩).1.ops_ idx = operation_t.READ) ↔
        2 * (engine_iter (idx.1 + 1) default_engine_state - 1) < 2147483647 := by
    intro idx
    show (opOfIdx (pickIdx [(1 : ℚ)/2, 1/2, 0, 0, 0]
        (draw_to_q ([(1 : ℚ)/2, 1/2, 0, 0, 0].sum)
          (engine_iter (idx.1 + 1) default_engine_state))) = operation_t.READ) ↔ _
    rw [hsum,
      pickIdx_half_char (engine_iter (idx.1 + 1) default_engine_state)
        (engine_iter_succ_le idx.1 default_engine_state)]
    by_cases hc : 2 * (engine_iter (idx.1 + 1) default_engine_state - 1) < 2147483647
    · simp [hc, opOfIdx]
    · simp [hc, opOfIdx]
  have hcard : (Finset.univ.filter fun idx : Fin 256 =>
      (mk_operation_generator (1/2) (1/2) 0 0 0 ⟨0, 0⟩).1.ops_ idx = operation_t.READ).card
        = 124 := by
    simp only [hchar]
    decide
  have hfreq : tableFreq (mk_operation_generator (1/2) (1/2) 0 0 0 ⟨0, 0⟩).1.ops_
      operation_t.READ = 124/256 := by
    unfold tableFreq
    rw [hcard]
    norm_num
  refine ⟨hfreq, ?_⟩
  rw [hfreq, show (124 : ℚ)/256 - 1/2 = -(1/64) by norm_num, abs_neg,
    abs_of_nonneg (by norm_num : (0 : ℚ) ≤ 1/64)]
  norm_num

/-- C2 amended: the 256-entry table is built by independently sampling
each slot from the ratio-weighted discrete distribution, and any operation
whose configured ratio is positive backs every slot ever returned: an
operation with ratio zero is never returned by next(). (The empirical
frequencies match the ratios only in expectation; they are not bounded
within 1/256 of the ratios, see the counterexample.) -/
theorem zero_ratio_never_generated (r i u m s : ℚ) (σ : ℕ → ℚ)
    (hσ : ∀ n, 0 ≤ σ n ∧ σ n < [r, i, u, m, s].sum) (draw : ℕ) :
    0 < ratioOf r i u m s (og_next (buildTable r i u m s σ) draw) := by
  show 0 < ratioOf r i u m s (opOfIdx (pickIdx [r, i, u, m, s] (σ (draw &&& 255))))
  have hlt : pickIdx [r, i, u, m, s] (σ (draw &&& 255)) < 5 := by
    simpa using pickIdx_lt_length [r, i, u, m, s] (σ (draw &&& 255)) (by simp)
  rw [ratioOf_opOfIdx r i u m s _ hlt]
  exact pickIdx_pos_weight [r, i, u, m, s] (σ (draw &&& 255))
    (hσ (draw &&& 255)).1 (hσ (draw &&& 255)).2

/-- Witness for the amended C2 at concrete inputs. -/
theorem zero_ratio_never_generated_witness :
    0 < ratioOf (1/2) (1/2) 0 0 0
        (og_next (buildTable (1/2) (1/2) 0 0 0 fun _ => 1/4) 99) :=
  zero_ratio_never_generated (1/2) (1/2) 0 0 0 (fun _ => 1/4)
    (fun n => by norm_num) 99

/-- The rotation in explicit high/low-part form. -/
theorem rotl_id_eq (id : ℕ) (h : id < 2 ^ 64) :
    rotl_id id = (id % 2 ^ 56) * 256 + id / 2 ^ 56 := by
  unfold rotl_id
  have hx : id = 2 ^ 56 * (id / 2 ^ 56) + id % 2 ^ 56 := (Nat.div_add_mod id (2 ^ 56)).symm
  have h2 : id * 256 = (id % 2 ^ 56) * 256 + (id / 2 ^ 56) * 2 ^ 64 := by
    nth_rewrite 1 [hx]
    ring
  rw [h2, Nat.add_mul_mod_self_right, Nat.mod_eq_of_lt]
  have : id % 2 ^ 56 < 2 ^ 56 := Nat.mod_lt id (by norm_num)
  omega

/-- The scrambled id still fits in 64 bits. -/
theorem rotl_id_lt (id : ℕ) (h : id < 2 ^ 64) : rotl_id id < 2 ^ 64 := by
  rw [rotl_id_eq id h]
  have : id % 2 ^ 56 < 2 ^ 56 := Nat.mod_lt id (by norm_num)
  omega

/-- The right rotation inverts the left rotation on 64-bit values. -/
theorem rotr_rotl_id (id : ℕ) (h : id < 2 ^ 64) : rotr_id (rotl_id id) = id := by
  rw [rotl_id_eq id h]
  unfold rotr_id
  omega

/-- beBytes produces exactly n bytes. -/
theorem beBytes_length (n v : ℕ) : (beBytes n v).length = n := by
  induction n generalizing v with
  | zero => rfl
  | succ k ih => simp [beBytes, ih]

/-- Folding the byte-accumulator from init a adds a * 256 ^ length. -/
theorem foldl_step_init (l : List ℕ) (a : ℕ) :
    l.foldl (fun acc b => 256 * acc + b) a =
      a * 256 ^ l.length + l.foldl (fun acc b => 256 * acc + b) 0 := by
  induction l generalizing a with
  | nil => simp
  | cons x t ih =>
    simp only [List.foldl_cons, List.length_cons]
    rw [ih (256 * a + x), ih (256 * 0 + x)]
    ring

/-- Reading back the big-endian bytes recovers the low n bytes. -/
theorem fromBE_beBytes (n v : ℕ) : fromBE (beBytes n v) = v % 2 ^ (8 * n) := by
  induction n generalizing v with
  | zero => simp [beBytes, fromBE, Nat.mod_one]
  | succ k ih =>
    unfold fromBE at ih ⊢
    simp only [beBytes, List.foldl_cons]
    rw [foldl_step_init, beBytes_length, ih]
    have hm : v % (2 ^ (8 * k) * 256) =
        v % 2 ^ (8 * k) + 2 ^ (8 * k) * (v / 2 ^ (8 * k) % 256) := Nat.mod_mul
    have hpow : (2 : ℕ) ^ (8 * (k + 1)) = 2 ^ (8 * k) * 256 := by
      rw [Nat.mul_succ, pow_add]
      norm_num
    rw [hpow, hm]
    have h256 : (256 : ℕ) ^ k = 2 ^ (8 * k) := by
      rw [show (256 : ℕ) = 2 ^ 8 from rfl, ← pow_mul]
    rw [h256]
    ring

/-- Prepended zero bytes do not change the value read back. -/
theorem fromBE_replicate_zero (z : ℕ) (l : List ℕ) :
    fromBE (List.replicate z 0 ++ l) = fromBE l := by
  induction z with
  | zero => simp
  | succ k ih =>
    simp only [List.replicate_succ, List.cons_append]
    unfold fromBE at ih ⊢
    simpa using ih

/-- When the key is at least 8 bytes wide, the encoded bytes carry the
whole scrambled id. -/
theorem fromBE_bits_shift (size id : ℕ) (h8 : 8 ≤ size) (h : id < 2 ^ 64) :
    fromBE (bits_shift size id) = rotl_id id := by
  have hlt : rotl_id id < 2 ^ (8 * 8) := by
    have := rotl_id_lt id h
    norm_num at this ⊢
    omega
  unfold bits_shift
  by_cases hs : size ≤ 8
  · have h88 : size = 8 := le_antisymm hs h8
    subst h88
    rw [if_pos (le_refl 8), fromBE_beBytes]
    exact Nat.mod_eq_of_lt hlt
  · rw [if_neg hs, fromBE_replicate_zero, fromBE_beBytes]
    exact Nat.mod_eq_of_lt hlt

/-- Decoding inverts encoding at full width. -/
theorem unbits_shift_bits_shift (size id : ℕ) (h8 : 8 ≤ size) (h : id < 2 ^ 64) :
    unbits_shift (bits_shift size id) = id := by
  unfold unbits_shift
  rw [fromBE_bits_shift size id h8 h, rotr_rotl_id id h]

/-- C3 counterexample: with a configured key size of 1 byte the higher
bits are discarded, and the distinct identifiers 1 and 2 produce the same
encoded byte; moreover the inverse of the shift applied to the encoded
bytes of identifier 1 does not recover 1. -/
theorem key_encoding_truncation_counterexample :
    bits_shift 1 1 = bits_shift 1 2 ∧ (1 : ℕ) ≠ 2 ∧
      unbits_shift (bits_shift 1 1) ≠ 1 := by
  refine ⟨?_, by norm_num, ?_⟩ <;> decide

/-- C3 amended: the identifier-to-bytes encoding is invertible whenever
the encoded width actually used retains the whole scrambled identifier,
i.e. the configured key size is at least 8 bytes: then applying the
inverse of the bit-shift scrambling to the encoded bytes recovers every
64-bit identifier exactly, and no two distinct identifiers collide. For
smaller configured sizes the higher bits are discarded and distinct
identifiers can collide (see the counterexample). -/
theorem key_encoding_roundtrip (size id id2 : ℕ) (h8 : 8 ≤ size)
    (h : id < 2 ^ 64) (h2 : id2 < 2 ^ 64) :
    unbits_shift (bits_shift size id) = id ∧
      (bits_shift size id = bits_shift size id2 → id = id2) := by
  refine ⟨unbits_shift_bits_shift size id h8 h, fun he => ?_⟩
  have hc := congrArg unbits_shift he
  rwa [unbits_shift_bits_shift size id h8 h,
    unbits_shift_bits_shift size id2 h8 h2] at hc

/-- Witness for the amended C3 at concrete inputs. -/
theorem key_encoding_roundtrip_witness :
    unbits_shift (bits_shift 8 5) = 5 ∧
      (bits_shift 8 5 = bits_shift 8 7 → 5 = 7) :=
  key_encoding_roundtrip 8 5 7 (by norm_num) (by norm_num) (by norm_num)

/-- C6: in time-based mode, two worker threads with distinct one-byte
thread ids never produce byte-identical keys, whatever pair of identifiers
each generates: the byte right after the common configured prefix is the
thread id itself. -/
theorem time_mode_keys_distinct (g : key_generator_t) (t1 t2 id1 id2 : ℕ)
    (h1 : t1 < 256) (h2 : t2 < 256) (hne : t1 ≠ t2) :
    kg_next_time g t1 id1 ≠ kg_next_time g t2 id2 := by
  intro he
  unfold kg_next_time at he
  have h3 := List.append_cancel_left he
  injection h3 with ha hb
  exact hne ha

/-- Witness for C6 at concrete inputs. -/
theorem time_mode_keys_distinct_witness :
    kg_next_time ⟨10, 8, [65], true⟩ 1 3 ≠ kg_next_time ⟨10, 8, [65], true⟩ 2 3 :=
  time_mode_keys_distinct ⟨10, 8, [65], true⟩ 1 2 3 3
    (by norm_num) (by norm_num) (by norm_num)

/-- C4 counterexample: set_seed re-seeds the calling thread's already
constructed and advanced engine. After one advance from the
default-constructed state the engine holds 16807; calling set_seed(1729)
resets it to 1729, so the advanced state is destroyed. -/
theorem set_seed_resets_advanced_engine :
    (kg_set_seed 1729
        { seed_ := 1729, generator_ := engine_next default_engine_state }).generator_ ≠
      engine_next default_engine_state := by
  decide

/-- C4 amended: set_seed updates the calling thread's thread-local seed
and immediately re-seeds the calling thread's engine — including one that
was already constructed and advanced — while the thread-local engine of
every other thread is unaffected by the call. -/
theorem set_seed_is_thread_local (procSt : ℕ → thread_rng_state) (t t2 sd : ℕ)
    (h : t2 ≠ t) :
    kg_set_seed_by t sd procSt t2 = procSt t2 ∧
      (kg_set_seed_by t sd procSt t).seed_ = sd ∧
      (kg_set_seed_by t sd procSt t).generator_ = engine_seed sd := by
  unfold kg_set_seed_by kg_set_seed
  exact ⟨by simp [h], by simp, by simp⟩

/-- Witness for the amended C4 at concrete inputs. -/
theorem set_seed_is_thread_local_witness :
    kg_set_seed_by 0 42 (fun _ => ⟨0, 1⟩) 1 = (fun _ : ℕ => (⟨0, 1⟩ : thread_rng_state)) 1 ∧
      (kg_set_seed_by 0 42 (fun _ => ⟨0, 1⟩) 0).seed_ = 42 ∧
      (kg_set_seed_by 0 42 (fun _ => ⟨0, 1⟩) 0).generator_ = engine_seed 42 :=
  set_seed_is_thread_local (fun _ => ⟨0, 1⟩) 0 1 42 (by norm_num)

/-- Closed form of the load loop: starting the cursor at cur, n sequential
inserts consume the identifiers cur, cur+1, ..., cur+n-1 in order,
whatever next_id function the configured distribution supplies. -/
theorem load_loop_closed_form (g : key_generator_t) (nid : ℕ → ℕ) (n cur : ℕ) :
    load_loop g nid n cur =
      (List.range' cur n).map fun idv => (idv, g.pfx ++ bits_shift g.size_ idv) := by
  induction n generalizing cur with
  | zero => simp [load_loop]
  | succ k ih =>
    have hstep : kg_next g nid true cur 0 = (g.pfx ++ bits_shift g.size_ cur, cur + 1) := by
      simp [kg_next]
    simp only [load_loop, hstep]
    rw [ih (cur + 1), List.range'_succ, List.map_cons]

/-- C1 counterexample: the pairwise-distinct-keys part of the claim fails
for configured key sizes below 8 bytes, which the source supports ("the
higher bits are discarded"): at key size 1 and N_ = 2 the two load-phase
inserts carry the byte-identical keys [0] and [0]. (At key size 1 a
collision among 257 sequential identifiers is forced for any stable
encoding by pigeonhole; this instance exhibits one concretely in the
modelled encoding.) -/
theorem load_duplicate_keys_counterexample :
    (load ⟨2, 1, [], false⟩ fun _ => 0).map Prod.snd = [[0], [0]] ∧
      ¬ ((load ⟨2, 1, [], false⟩ fun _ => 0).map Prod.snd).Pairwise (· ≠ ·) := by
  constructor <;> decide

/-- C1 amended: for every configured record count N_, the load phase
issues exactly N_ insert calls, in strictly ascending identifier order
(the identifiers are exactly 1..N_), and the whole sequence is independent
of which run-phase next_id (uniform, self-similar, Zipfian, or any other)
is configured; the encoded keys are moreover pairwise distinct whenever
the encoded width retains the whole scrambled identifier — key size at
least 8 bytes and N_ within the 64-bit id space — while for smaller key
sizes the truncated encodings can collide (see the counterexample). -/
theorem load_phase_exact (g : key_generator_t) (nid nid2 : ℕ → ℕ) :
    load g nid = load g nid2 ∧
      (load g nid).length = g.N_ ∧
      ((load g nid).map Prod.fst).Chain' (· < ·) ∧
      (load g nid).map Prod.fst = (List.range g.N_).map (1 + ·) ∧
      (8 ≤ g.size_ → g.N_ < 2 ^ 64 →
        ((load g nid).map Prod.snd).Pairwise (· ≠ ·)) := by
  have hclosed : ∀ f : ℕ → ℕ, load g f =
      (List.range' 1 g.N_).map fun idv => (idv, g.pfx ++ bits_shift g.size_ idv) :=
    fun f => load_loop_closed_form g f g.N_ 1
  have hfst : (load g nid).map Prod.fst = List.range' 1 g.N_ := by
    rw [hclosed nid, List.map_map]
    have hid : (Prod.fst ∘ fun idv : ℕ => (idv, g.pfx ++ bits_shift g.size_ idv)) = id := rfl
    rw [hid, List.map_id]
  refine ⟨?_, ?_, ?_, ?_, ?_⟩
  · rw [hclosed nid, hclosed nid2]
  · rw [hclosed nid]
    simp
  · rw [hfst]
    exact (List.pairwise_lt_range' 1 g.N_ 1).chain'
  · rw [hfst, List.range'_eq_map_range]
  · intro h8 hN
    rw [hclosed nid, List.map_map]
    refine List.pairwise_map.mpr ?_
    refine List.Pairwise.imp_of_mem ?_ (List.pairwise_lt_range' 1 g.N_ 1)
    intro a b ha hb hab
    have hamem := List.mem_range'_1.mp ha
    have hbmem := List.mem_range'_1.mp hb
    have ha64 : a < 2 ^ 64 := by omega
    have hb64 : b < 2 ^ 64 := by omega
    simp only [Function.comp]
    intro he
    have hbits : bits_shift g.size_ a = bits_shift g.size_ b :=
      List.append_cancel_left he
    have hda := unbits_shift_bits_shift g.size_ a h8 ha64
    have hdb := unbits_shift_bits_shift g.size_ b h8 hb64
    have hasb : a = b := by
      have hcong := congrArg unbits_shift hbits
      rwa [hda, hdb] at hcong
    omega

/-- Witness for the amended C1 at a concrete configuration (N_ = 3,
8-byte keys, a one-byte key prefix) and two different distribution next_id
functions, discharging the width hypotheses of the distinctness part. -/
theorem load_phase_exact_witness :
    load ⟨3, 8, [65], false⟩ (fun _ => 0) = load ⟨3, 8, [65], false⟩ (fun d => d + 1) ∧
      (load ⟨3, 8, [65], false⟩ (fun _ => 0)).length = 3 ∧
      ((load ⟨3, 8, [65], false⟩ (fun _ => 0)).map Prod.fst).Chain' (· < ·) ∧
      (load ⟨3, 8, [65], false⟩ (fun _ => 0)).map Prod.fst = (List.range 3).map (1 + ·) ∧
      ((load ⟨3, 8, [65], false⟩ (fun _ => 0)).map Prod.snd).Pairwise (· ≠ ·) :=
  ⟨(load_phase_exact ⟨3, 8, [65], false⟩ (fun _ => 0) (fun d => d + 1)).1,
    (load_phase_exact ⟨3, 8, [65], false⟩ (fun _ => 0) (fun d => d + 1)).2.1,
    (load_phase_exact ⟨3, 8, [65], false⟩ (fun _ => 0) (fun d => d + 1)).2.2.1,
    (load_phase_exact ⟨3, 8, [65], false⟩ (fun _ => 0) (fun d => d + 1)).2.2.2.1,
    (load_phase_exact ⟨3, 8, [65], false⟩ (fun _ => 0) (fun d => d + 1)).2.2.2.2
      (by decide) (by decide)⟩

end PiBench
